import Mathlib

/-!
# Verification of the PR-review pipeline

A shallow embedding, in Lean 4, of the core of the automated pull-request
review service: the unified-diff parser (`routes/review.py`), the result
normalizer (`agents/base_agent.py`), the LLM retry wrapper
(`agents/llm_client.py`) and the orchestrator / deduplicator
(`agents/orchestrator.py`).  Pure Python functions become Lean functions;
the external LLM producer is an oracle parameter; `float` confidences are
modeled as rationals (the programs only compare and clamp them, never do
lossy arithmetic, so exact rationals are faithful for every value the
theorems touch).  String operations are modeled over the underlying
character lists at Python `str` (code-point) granularity; only the ASCII
fragment of Python's Unicode-aware `strip`/`lower`/`split` is modeled,
which covers every value these theorems evaluate.
-/

/-- Python's default whitespace set for `str.strip()` / `str.split()`
(ASCII subset; the extra Unicode spaces Python also treats as whitespace
are not modeled). -/
def pyIsSpace (c : Char) : Bool :=
  c = ' ' || c = '\t' || c = '\n' || c = '\r' || c = '\x0b' || c = '\x0c'

/-- Python `s.strip()` (no-argument form): drop leading and trailing whitespace. -/
def pyStrip (s : String) : String :=
  ⟨((s.data.dropWhile pyIsSpace).reverse.dropWhile pyIsSpace).reverse⟩

/-- Python `s.lower()` (ASCII case mapping). -/
def pyLower (s : String) : String :=
  ⟨s.data.map Char.toLower⟩

/-- Python slicing `s[:n]`. -/
def pyTake (s : String) (n : Nat) : String :=
  ⟨s.data.take n⟩

/-- Python slicing `s[n:]`. -/
def pyDrop (s : String) (n : Nat) : String :=
  ⟨s.data.drop n⟩

/-- Character-list prefix test (the obvious structural recursion). -/
def isPrefixChars : List Char → List Char → Bool
  | [], _ => true
  | _ :: _, [] => false
  | a :: as, b :: bs => a == b && isPrefixChars as bs

/-- Python `s.startswith(p)`. -/
def pyStartswith (s p : String) : Bool :=
  isPrefixChars p.data s.data

/-- Helper for `pySplitNl`: accumulate the current field (reversed) while
scanning. -/
def pySplitNlAux : List Char → List Char → List String
  | [], acc => [⟨acc.reverse⟩]
  | c :: cs, acc =>
    if c = '\n' then ⟨acc.reverse⟩ :: pySplitNlAux cs []
    else pySplitNlAux cs (c :: acc)

/-- Python `s.split("\n")`: split on every newline, keeping empty fields. -/
def pySplitNl (s : String) : List String :=
  pySplitNlAux s.data []

/-- Helper for `pyWords`. -/
def pyWordsAux : List Char → List Char → List String
  | [], acc => if acc.isEmpty then [] else [⟨acc.reverse⟩]
  | c :: cs, acc =>
    if pyIsSpace c then
      if acc.isEmpty then pyWordsAux cs [] else ⟨acc.reverse⟩ :: pyWordsAux cs []
    else pyWordsAux cs (c :: acc)

/-- Python `s.split()` with no argument: split on whitespace runs,
discarding empty fields. -/
def pyWords (s : String) : List String :=
  pyWordsAux s.data []

/-- Python string comparison on the underlying code-point lists
(lexicographic, as Python compares `str` values). -/
def charListLt : List Char → List Char → Bool
  | _, [] => false
  | [], _ :: _ => true
  | a :: as, b :: bs =>
    if a.toNat < b.toNat then true
    else if b.toNat < a.toNat then false
    else charListLt as bs

/-- Python `a < b` on strings. -/
def pyStrLt (a b : String) : Bool :=
  charListLt a.data b.data

/-! ## Data model: review comments (`Finding` records)

`agents/base_agent.py` and `agents/orchestrator.py` pass findings around as
dicts with keys `path`, `line`, `side`, `category`, `confidence`, `body`.
All comments built by the normalizer carry every key, so the record below
is total.  A non-string value parked in `path`/`side`/`category` by the
fallback parser is stored via a fixed rendering (`jvalFieldStr`, later);
no theorem inspects those renderings. -/

structure Comment where
  path : String
  line : Int
  side : String
  category : String
  confidence : ℚ
  body : String
  deriving DecidableEq, Repr

/-! ## Deduplicator (`orchestrator._deduplicate_comments`) -/

/-- `orchestrator._normalize_text`: `" ".join(text.lower().split())`.
(Defined in the source but not used by `_deduplicate_comments`.) -/
def normalize_text (text : String) : String :=
  String.intercalate " " (pyWords (pyLower text))

/-- The key actually built at `orchestrator.py:102-103`:
`f"{path}:{line}:{body[:200].strip().lower()}"`. -/
def commentKey (c : Comment) : String :=
  c.path ++ ":" ++ toString c.line ++ ":" ++ pyLower (pyStrip (pyTake c.body 200))

/-- The deduplication key as the specification words it ("path, line,
first 200 characters of the body, lower-cased and whitespace-normalized,
trimmed"); stated only to compare against `commentKey`, the key the code
builds. -/
def specDedupKey (c : Comment) : String × Int × String :=
  (c.path, c.line, normalize_text (pyTake c.body 200))

/-- Lookup in the insertion-ordered `seen` dict (first — and only —
binding of a key). -/
def lookupSeen : List (String × Comment) → String → Option Comment
  | [], _ => none
  | (k', c) :: rest, k => if k' = k then some c else lookupSeen rest k

/-- In-place value replacement `seen[key] = comment` for a key already
present: a Python dict keeps the key's original insertion position. -/
def replaceSeen : List (String × Comment) → String → Comment → List (String × Comment)
  | [], _, _ => []
  | (k', c') :: rest, k, c =>
    if k' = k then (k', c) :: rest else (k', c') :: replaceSeen rest k c

/-- One iteration of the `for comment in comments` loop of
`_deduplicate_comments` (orchestrator.py:96-114). -/
def dedupInsert (seen : List (String × Comment)) (c : Comment) : List (String × Comment) :=
  match lookupSeen seen (commentKey c) with
  | some existing =>
    if existing.confidence < c.confidence then replaceSeen seen (commentKey c) c else seen
  | none => seen ++ [(commentKey c, c)]

/-- Strict `<` on the Python sort key `(x.get("path",""), x.get("line",0))`. -/
def sortKeyLt (a b : Comment) : Bool :=
  if a.path = b.path then decide (a.line < b.line) else pyStrLt a.path b.path

/-- Stable insertion of one element into an already-sorted list: the new
element goes after every earlier element whose key is `≤` its own. -/
def insertSorted (c : Comment) : List Comment → List Comment
  | [] => [c]
  | h :: t => if sortKeyLt c h then c :: h :: t else h :: insertSorted c t

/-- Python's stable `list.sort(key=lambda x: (path, line))`
(orchestrator.py:119), modeled as a stable insertion sort — any stable
sort under the same key produces the same sequence. -/
def pySortComments (l : List Comment) : List Comment :=
  l.foldl (fun acc c => insertSorted c acc) []

/-- `orchestrator._deduplicate_comments` (orchestrator.py:81-125). -/
def deduplicate_comments (comments : List Comment) : List Comment :=
  if comments.isEmpty then []
  else pySortComments ((comments.foldl dedupInsert []).map Prod.snd)

/-! ## Per-key behavior of the deduplicator -/

/-- The effect of one loop iteration of `_deduplicate_comments` on the
binding stored for key `k`. -/
def bestStep (k : String) (acc : Option Comment) (c : Comment) : Option Comment :=
  if commentKey c = k then
    match acc with
    | none => some c
    | some b => if b.confidence < c.confidence then some c else some b
  else acc

theorem lookupSeen_append (l r : List (String × Comment)) (k : String) :
    lookupSeen (l ++ r) k =
      match lookupSeen l k with
      | some c => some c
      | none => lookupSeen r k := by
  induction l with
  | nil => simp [lookupSeen]
  | cons p rest ih =>
    obtain ⟨k', c⟩ := p
    by_cases h : k' = k <;> simp [lookupSeen, h, ih]

theorem lookupSeen_replaceSeen (seen : List (String × Comment)) (k₀ k : String) (c : Comment) :
    lookupSeen (replaceSeen seen k₀ c) k =
      if k = k₀ ∧ (lookupSeen seen k₀).isSome then some c else lookupSeen seen k := by
  induction seen with
  | nil => simp [replaceSeen, lookupSeen]
  | cons p rest ih =>
    obtain ⟨k', c'⟩ := p
    by_cases h0 : k' = k₀
    · subst h0
      by_cases hk : k' = k
      · subst hk; simp [replaceSeen, lookupSeen]
      · have hk' : ¬ k = k' := fun h => hk h.symm
        simp [replaceSeen, lookupSeen, hk, hk']
    · by_cases hk : k' = k
      · subst hk
        have : ¬ (k' = k₀ ∧ (lookupSeen ((k', c') :: rest) k₀).isSome) := fun h => h0 h.1
        simp [replaceSeen, lookupSeen, h0, this]
      · simp [replaceSeen, lookupSeen, h0, hk, ih]

theorem lookupSeen_dedupInsert (seen : List (String × Comment)) (c : Comment) (k : String) :
    lookupSeen (dedupInsert seen c) k = bestStep k (lookupSeen seen k) c := by
  cases hl : lookupSeen seen (commentKey c) with
  | none =>
    have hd : dedupInsert seen c = seen ++ [(commentKey c, c)] := by
      unfold dedupInsert
      rw [hl]
    rw [hd, lookupSeen_append]
    by_cases hk : commentKey c = k
    · subst hk
      rw [hl]
      simp [bestStep, lookupSeen, hl]
    · cases hsk : lookupSeen seen k with
      | none => simp [bestStep, hk, lookupSeen, hsk]
      | some b => simp [bestStep, hk, hsk]
  | some b =>
    by_cases hcf : b.confidence < c.confidence
    · have hd : dedupInsert seen c = replaceSeen seen (commentKey c) c := by
        unfold dedupInsert
        rw [hl]
        simp [hcf]
      rw [hd, lookupSeen_replaceSeen]
      by_cases hk : k = commentKey c
      · subst hk; simp [bestStep, hl, hcf]
      · have hk' : ¬ commentKey c = k := fun h => hk h.symm
        simp [bestStep, hk', hk]
    · have hd : dedupInsert seen c = seen := by
        unfold dedupInsert
        rw [hl]
        simp [hcf]
      rw [hd]
      by_cases hk : commentKey c = k
      · subst hk; simp [bestStep, hl, hcf]
      · simp [bestStep, hk]

theorem lookupSeen_foldl (l : List Comment) :
    ∀ (seen : List (String × Comment)) (k : String),
      lookupSeen (l.foldl dedupInsert seen) k = l.foldl (bestStep k) (lookupSeen seen k) := by
  induction l with
  | nil => intro seen k; rfl
  | cons c cs ih =>
    intro seen k
    simp only [List.foldl_cons]
    rw [ih, lookupSeen_dedupInsert]

theorem bestFold_char (k : String) :
    ∀ (l : List Comment) (acc : Option Comment) (c : Comment),
      l.foldl (bestStep k) acc = some c →
      (acc = some c ∧ ∀ d ∈ l, commentKey d = k → d.confidence ≤ c.confidence) ∨
      (commentKey c = k ∧ ∃ pre suf, l = pre ++ c :: suf ∧
        (∀ b, acc = some b → b.confidence < c.confidence) ∧
        (∀ d ∈ pre, commentKey d = k → d.confidence < c.confidence) ∧
        (∀ d ∈ suf, commentKey d = k → d.confidence ≤ c.confidence)) := by
  intro l
  induction l with
  | nil =>
    intro acc c h
    left
    exact ⟨h, by simp⟩
  | cons x xs ih =>
    intro acc c h
    rw [List.foldl_cons] at h
    by_cases hx : commentKey x = k
    · cases acc with
      | none =>
        have h' : xs.foldl (bestStep k) (some x) = some c := by
          simpa [bestStep, hx] using h
        rcases ih (some x) c h' with ⟨h1, h2⟩ | ⟨hck, pre, suf, heq, hacc, hpre, hsuf⟩
        · have hxc : x = c := by injection h1
          subst hxc
          right
          exact ⟨hx, [], xs, by simp, by simp, by simp, h2⟩
        · right
          refine ⟨hck, x :: pre, suf, by simp [heq], by simp, ?_, hsuf⟩
          intro d hd hk'
          rcases List.mem_cons.mp hd with rfl | hd'
          · exact hacc d rfl
          · exact hpre d hd' hk'
      | some b =>
        by_cases hbc : b.confidence < x.confidence
        · have h' : xs.foldl (bestStep k) (some x) = some c := by
            simpa [bestStep, hx, hbc] using h
          rcases ih (some x) c h' with ⟨h1, h2⟩ | ⟨hck, pre, suf, heq, hacc, hpre, hsuf⟩
          · have hxc : x = c := by injection h1
            subst hxc
            right
            refine ⟨hx, [], xs, by simp, ?_, by simp, h2⟩
            intro b' hb'
            have : b' = b := by injection hb'.symm
            subst this; exact hbc
          · right
            have hxlt : x.confidence < c.confidence := hacc x rfl
            refine ⟨hck, x :: pre, suf, by simp [heq], ?_, ?_, hsuf⟩
            · intro b' hb'
              have : b' = b := by injection hb'.symm
              subst this; exact lt_trans hbc hxlt
            · intro d hd hk'
              rcases List.mem_cons.mp hd with rfl | hd'
              · exact hxlt
              · exact hpre d hd' hk'
        · have h' : xs.foldl (bestStep k) (some b) = some c := by
            simpa [bestStep, hx, hbc] using h
          rcases ih (some b) c h' with ⟨h1, h2⟩ | ⟨hck, pre, suf, heq, hacc, hpre, hsuf⟩
          · have hbceq : b = c := by injection h1
            subst hbceq
            left
            refine ⟨rfl, ?_⟩
            intro d hd hk'
            rcases List.mem_cons.mp hd with rfl | hd'
            · exact le_of_not_lt hbc
            · exact h2 d hd' hk'
          · right
            have hblt : b.confidence < c.confidence := hacc b rfl
            refine ⟨hck, x :: pre, suf, by simp [heq], hacc, ?_, hsuf⟩
            intro d hd hk'
            rcases List.mem_cons.mp hd with rfl | hd'
            · exact lt_of_le_of_lt (le_of_not_lt hbc) hblt
            · exact hpre d hd' hk'
    · have h' : xs.foldl (bestStep k) acc = some c := by
        simpa [bestStep, hx] using h
      rcases ih acc c h' with ⟨h1, h2⟩ | ⟨hck, pre, suf, heq, hacc, hpre, hsuf⟩
      · left
        refine ⟨h1, ?_⟩
        intro d hd hk'
        rcases List.mem_cons.mp hd with rfl | hd'
        · exact absurd hk' hx
        · exact h2 d hd' hk'
      · right
        refine ⟨hck, x :: pre, suf, by simp [heq], hacc, ?_, hsuf⟩
        intro d hd hk'
        rcases List.mem_cons.mp hd with rfl | hd'
        · exact absurd hk' hx
        · exact hpre d hd' hk'

/-- Every binding in `seen` stores the comment under its own key. -/
def seenKeysOk (seen : List (String × Comment)) : Prop :=
  ∀ p ∈ seen, p.1 = commentKey p.2

theorem map_fst_replaceSeen (seen : List (String × Comment)) (k : String) (c : Comment) :
    (replaceSeen seen k c).map Prod.fst = seen.map Prod.fst := by
  induction seen with
  | nil => rfl
  | cons p rest ih =>
    obtain ⟨k', c'⟩ := p
    by_cases h : k' = k <;> simp [replaceSeen, h, ih]

theorem seenKeysOk_replaceSeen {seen : List (String × Comment)} {c : Comment}
    (hok : seenKeysOk seen) :
    seenKeysOk (replaceSeen seen (commentKey c) c) := by
  induction seen with
  | nil => intro p hp; cases hp
  | cons q rest ih =>
    obtain ⟨k', c'⟩ := q
    by_cases h : k' = commentKey c
    · intro p hp
      rw [replaceSeen, if_pos h] at hp
      rcases List.mem_cons.mp hp with rfl | hp'
      · exact h
      · exact hok p (List.mem_cons_of_mem _ hp')
    · intro p hp
      rw [replaceSeen, if_neg h] at hp
      rcases List.mem_cons.mp hp with rfl | hp'
      · exact hok _ (List.mem_cons_self _ _)
      · exact ih (fun q hq => hok q (List.mem_cons_of_mem _ hq)) p hp'

theorem lookupSeen_eq_none_iff (seen : List (String × Comment)) (k : String) :
    lookupSeen seen k = none ↔ k ∉ seen.map Prod.fst := by
  induction seen with
  | nil => simp [lookupSeen]
  | cons p rest ih =>
    obtain ⟨k', c'⟩ := p
    by_cases h : k' = k
    · subst h
      simp [lookupSeen]
    · have h2 : ¬ k = k' := fun hh => h hh.symm
      simp [lookupSeen, h, h2, ih]

theorem seenKeysOk_dedupInsert {seen : List (String × Comment)} {c : Comment}
    (hok : seenKeysOk seen) : seenKeysOk (dedupInsert seen c) := by
  unfold dedupInsert
  cases hl : lookupSeen seen (commentKey c) with
  | none =>
    intro p hp
    rcases List.mem_append.mp hp with hp' | hp'
    · exact hok p hp'
    · rcases List.mem_singleton.mp hp' with rfl
      rfl
  | some b =>
    by_cases hcf : b.confidence < c.confidence
    · simpa [hcf] using seenKeysOk_replaceSeen hok
    · simpa [hcf] using hok

theorem seenNodup_dedupInsert {seen : List (String × Comment)} {c : Comment}
    (hnd : (seen.map Prod.fst).Nodup) : ((dedupInsert seen c).map Prod.fst).Nodup := by
  unfold dedupInsert
  cases hl : lookupSeen seen (commentKey c) with
  | none =>
    have hnotin : commentKey c ∉ seen.map Prod.fst := (lookupSeen_eq_none_iff _ _).mp hl
    simp only [List.map_append, List.map_cons, List.map_nil]
    refine List.Nodup.append hnd (List.nodup_singleton _) ?_
    intro a ha hb
    rw [List.mem_singleton] at hb
    subst hb
    exact hnotin ha
  | some b =>
    by_cases hcf : b.confidence < c.confidence
    · simpa [hcf, map_fst_replaceSeen] using hnd
    · simpa [hcf] using hnd

theorem seenOk_foldl (l : List Comment) :
    ∀ (seen : List (String × Comment)), seenKeysOk seen → (seen.map Prod.fst).Nodup →
      seenKeysOk (l.foldl dedupInsert seen) ∧ ((l.foldl dedupInsert seen).map Prod.fst).Nodup := by
  induction l with
  | nil => intro seen hok hnd; exact ⟨hok, hnd⟩
  | cons c cs ih =>
    intro seen hok hnd
    exact ih (dedupInsert seen c) (seenKeysOk_dedupInsert hok) (seenNodup_dedupInsert hnd)

theorem lookupSeen_of_mem {seen : List (String × Comment)} {k : String} {c : Comment}
    (hmem : (k, c) ∈ seen) (hnd : (seen.map Prod.fst).Nodup) :
    lookupSeen seen k = some c := by
  induction seen with
  | nil => cases hmem
  | cons p rest ih =>
    obtain ⟨k', c'⟩ := p
    rw [List.map_cons, List.nodup_cons] at hnd
    rcases List.mem_cons.mp hmem with heq | hmem'
    · injection heq with h1 h2
      subst h1
      subst h2
      simp [lookupSeen]
    · have hk : k' ≠ k := by
        intro h
        subst h
        exact hnd.1 (List.mem_map.mpr ⟨(k', c), hmem', rfl⟩)
      rw [lookupSeen, if_neg hk]
      exact ih hmem' hnd.2

theorem filter_key_le_one {seen : List (String × Comment)} (k : String)
    (hok : seenKeysOk seen) (hnd : (seen.map Prod.fst).Nodup) :
    ((seen.map Prod.snd).filter (fun c => commentKey c = k)).length ≤ 1 := by
  induction seen with
  | nil => simp
  | cons p rest ih =>
    obtain ⟨k', c'⟩ := p
    have hok' : seenKeysOk rest := fun q hq => hok q (List.mem_cons_of_mem _ hq)
    have hnd' : (rest.map Prod.fst).Nodup := by
      simp [List.nodup_cons] at hnd; exact hnd.2
    by_cases hc : commentKey c' = k
    · have h1 : k' = commentKey c' := by
        simpa using hok (k', c') (List.mem_cons_self _ _)
      have hkk : k' = k := h1.trans hc
      subst hkk
      rw [List.map_cons, List.nodup_cons] at hnd
      have hrest : (rest.map Prod.snd).filter (fun c => commentKey c = k') = [] := by
        rw [List.filter_eq_nil_iff]
        intro a ha
        rcases List.mem_map.mp ha with ⟨⟨kq, cq⟩, hq, rfl⟩
        have hkey : kq = commentKey cq := by
          simpa using hok (kq, cq) (List.mem_cons_of_mem _ hq)
        simp only [decide_eq_true_eq]
        intro hcontr
        have hmem : kq ∈ rest.map Prod.fst := List.mem_map.mpr ⟨(kq, cq), hq, rfl⟩
        exact hnd.1 ((hkey.trans hcontr) ▸ hmem)
      simp [hc, hrest]
    · simpa [hc] using ih hok' hnd'

/-! ## Permutation and sortedness facts about the final sort -/

theorem insertSorted_perm (c : Comment) (l : List Comment) :
    List.Perm (insertSorted c l) (c :: l) := by
  induction l with
  | nil => exact List.Perm.refl _
  | cons h t ih =>
    by_cases hlt : sortKeyLt c h = true
    · rw [insertSorted, if_pos hlt]
    · rw [insertSorted, if_neg hlt]
      exact (List.Perm.cons h ih).trans (List.Perm.swap c h t)

theorem pySort_fold_perm (l : List Comment) :
    ∀ acc : List Comment,
      List.Perm (l.foldl (fun a c => insertSorted c a) acc) (acc ++ l) := by
  induction l with
  | nil => intro acc; simp
  | cons c cs ih =>
    intro acc
    rw [List.foldl_cons]
    refine (ih (insertSorted c acc)).trans ?_
    refine (List.Perm.append_right cs (insertSorted_perm c acc)).trans ?_
    exact List.perm_middle.symm

theorem deduplicate_comments_perm (comments : List Comment) :
    List.Perm (deduplicate_comments comments)
      ((comments.foldl dedupInsert []).map Prod.snd) := by
  unfold deduplicate_comments
  by_cases h : comments.isEmpty
  · have : comments = [] := by
      cases comments with
      | nil => rfl
      | cons a b => simp [List.isEmpty] at h
    subst this
    simp
  · rw [if_neg h]
    unfold pySortComments
    simpa using pySort_fold_perm ((comments.foldl dedupInsert []).map Prod.snd) []

theorem charListLt_nil_right (a : List Char) : charListLt a [] = false := by
  cases a <;> rfl

theorem charListLt_asymm (a : List Char) :
    ∀ b, charListLt a b = true → charListLt b a = false := by
  induction a with
  | nil =>
    intro b h
    cases b with
    | nil => simp [charListLt] at h
    | cons y ys => exact charListLt_nil_right _
  | cons x xs ih =>
    intro b h
    cases b with
    | nil => rw [charListLt_nil_right] at h; cases h
    | cons y ys =>
      rw [charListLt] at h ⊢
      by_cases h1 : x.toNat < y.toNat
      · have h2 : ¬ y.toNat < x.toNat := Nat.lt_asymm h1
        simp [h1, h2]
      · by_cases h2 : y.toNat < x.toNat
        · rw [if_neg h1, if_pos h2] at h; cases h
        · rw [if_neg h1, if_neg h2] at h
          simp [h1, h2, ih ys h]

theorem charListLt_trans (a : List Char) :
    ∀ b c, charListLt a b = true → charListLt b c = true → charListLt a c = true := by
  induction a with
  | nil =>
    intro b c _ hbc
    cases c with
    | nil => rw [charListLt_nil_right] at hbc; cases hbc
    | cons z zs => rfl
  | cons x xs ih =>
    intro b c hab hbc
    cases b with
    | nil => rw [charListLt_nil_right] at hab; cases hab
    | cons y ys =>
      cases c with
      | nil => rw [charListLt_nil_right] at hbc; cases hbc
      | cons z zs =>
        rw [charListLt] at hab hbc ⊢
        by_cases h1 : x.toNat < y.toNat
        · by_cases h2 : y.toNat < z.toNat
          · simp [Nat.lt_trans h1 h2]
          · by_cases h3 : z.toNat < y.toNat
            · rw [if_neg h2, if_pos h3] at hbc; cases hbc
            · have heq : y.toNat = z.toNat := Nat.le_antisymm (Nat.not_lt.mp h3) (Nat.not_lt.mp h2)
              rw [← heq]
              simp [h1]
        · by_cases h2 : y.toNat < x.toNat
          · rw [if_neg h1, if_pos h2] at hab; cases hab
          · have heq : x.toNat = y.toNat := Nat.le_antisymm (Nat.not_lt.mp h2) (Nat.not_lt.mp h1)
            rw [if_neg h1, if_neg h2] at hab
            by_cases h3 : y.toNat < z.toNat
            · rw [heq]
              simp [h3]
            · by_cases h4 : z.toNat < y.toNat
              · rw [if_neg h3, if_pos h4] at hbc; cases hbc
              · rw [if_neg h3, if_neg h4] at hbc
                rw [heq]
                simp [h3, h4, ih ys zs hab hbc]

theorem sortKeyLt_asymm {a b : Comment} (h : sortKeyLt a b = true) :
    sortKeyLt b a = false := by
  unfold sortKeyLt at h ⊢
  by_cases hp : a.path = b.path
  · rw [if_pos hp] at h
    rw [if_pos hp.symm]
    simp only [decide_eq_true_eq] at h
    simp only [decide_eq_false_iff_not]
    omega
  · rw [if_neg hp] at h
    rw [if_neg (fun hh => hp hh.symm)]
    exact charListLt_asymm _ _ h

theorem sortKeyLt_trans {a b c : Comment} (h1 : sortKeyLt a b = true)
    (h2 : sortKeyLt b c = true) : sortKeyLt a c = true := by
  unfold sortKeyLt at h1 h2 ⊢
  by_cases hab : a.path = b.path <;> by_cases hbc : b.path = c.path
  · rw [if_pos hab] at h1
    rw [if_pos hbc] at h2
    rw [if_pos (hab.trans hbc)]
    simp only [decide_eq_true_eq] at h1 h2 ⊢
    omega
  · rw [if_neg hbc] at h2
    have hac : ¬ a.path = c.path := fun h => hbc (hab.symm.trans h)
    rw [if_neg hac]
    unfold pyStrLt at h2 ⊢
    rw [hab]
    exact h2
  · rw [if_neg hab] at h1
    have hac : ¬ a.path = c.path := fun h => hab (h.trans hbc.symm)
    rw [if_neg hac]
    unfold pyStrLt at h1 ⊢
    rw [← hbc]
    exact h1
  · rw [if_neg hab] at h1
    rw [if_neg hbc] at h2
    unfold pyStrLt at h1 h2
    have hac : ¬ a.path = c.path := by
      intro h
      have h2' : charListLt b.path.data a.path.data = true := by
        rw [h]
        exact h2
      have hcontra := charListLt_asymm _ _ h1
      rw [h2'] at hcontra
      cases hcontra
    rw [if_neg hac]
    unfold pyStrLt
    exact charListLt_trans _ _ _ h1 h2

theorem mem_insertSorted {x c : Comment} {l : List Comment}
    (h : x ∈ insertSorted c l) : x = c ∨ x ∈ l :=
  List.mem_cons.mp ((insertSorted_perm c l).mem_iff.mp h)

theorem pairwise_insertSorted {l : List Comment} (c : Comment)
    (h : List.Pairwise (fun a b => sortKeyLt b a = false) l) :
    List.Pairwise (fun a b => sortKeyLt b a = false) (insertSorted c l) := by
  induction l with
  | nil => simp [insertSorted]
  | cons hd t ih =>
    rw [List.pairwise_cons] at h
    by_cases hlt : sortKeyLt c hd = true
    · rw [insertSorted, if_pos hlt, List.pairwise_cons]
      constructor
      · intro x hx
        rcases List.mem_cons.mp hx with rfl | hx'
        · exact sortKeyLt_asymm hlt
        · by_contra hxc
          have hxc' : sortKeyLt x c = true := by
            cases hxx : sortKeyLt x c
            · exact absurd hxx hxc
            · rfl
          have hcontr : sortKeyLt x hd = true := sortKeyLt_trans hxc' hlt
          rw [h.1 x hx'] at hcontr
          cases hcontr
      · exact List.pairwise_cons.mpr h
    · rw [insertSorted, if_neg hlt, List.pairwise_cons]
      constructor
      · intro x hx
        rcases mem_insertSorted hx with rfl | hx'
        · simpa using hlt
        · exact h.1 x hx'
      · exact ih h.2

theorem pySort_fold_pairwise (l : List Comment) :
    ∀ acc, List.Pairwise (fun a b => sortKeyLt b a = false) acc →
      List.Pairwise (fun a b => sortKeyLt b a = false)
        (l.foldl (fun a c => insertSorted c a) acc) := by
  induction l with
  | nil => intro acc hacc; exact hacc
  | cons c cs ih =>
    intro acc hacc
    rw [List.foldl_cons]
    exact ih _ (pairwise_insertSorted c hacc)

/-! ## Claim C1: deduplication key and retention rule -/

/-- 0.9, written without normalization so kernel reduction can evaluate it. -/
def conf09 : ℚ := ⟨9, 10, by norm_num, by norm_num⟩

/-- 0.5, written without normalization so kernel reduction can evaluate it. -/
def conf05 : ℚ := ⟨1, 2, by norm_num, by norm_num⟩

/-- Two findings at the same path/line whose bodies differ only in internal
whitespace: they share the key as the SPEC words it, but not the key the
code builds. -/
def dupSpecA : Comment := ⟨"a.py", 3, "new", "logic", conf09, "dup  msg"⟩

/-- Companion of `dupSpecA` with a single internal space and lower confidence. -/
def dupSpecB : Comment := ⟨"a.py", 3, "new", "logic", conf05, "dup msg"⟩

/-- C1, counterexample: `dupSpecA` and `dupSpecB` share the deduplication
key exactly as the claim describes it (path, line, first-200-chars of the
body lower-cased, whitespace-normalized and trimmed) and have strictly
different confidences, yet `_deduplicate_comments` emits both of them:
the key the code builds (`body[:200].strip().lower()`) never normalizes
internal whitespace, so the two findings do not collapse. -/
theorem C1_counterexample :
    specDedupKey dupSpecA = specDedupKey dupSpecB ∧
    dupSpecB.confidence < dupSpecA.confidence ∧
    deduplicate_comments [dupSpecA, dupSpecB] = [dupSpecA, dupSpecB] := by
  refine ⟨by decide, by decide, by decide⟩

/-- C1, amended: the deduplication key the code builds is
`f"{path}:{line}:{body[:200].strip().lower()}"` — trimmed and lower-cased
but NOT whitespace-normalized.  For every batch and every key `k`, the
deduplicator emits at most one finding whose key is `k`, and an emitted
finding strictly beats every earlier finding sharing its key on confidence
(hence on an exact tie the first-observed is retained) and ties or beats
every later one (hence a strictly-higher-confidence duplicate wins). -/
theorem C1_dedup_retention (comments : List Comment) (k : String) :
    ((deduplicate_comments comments).filter (fun c => commentKey c = k)).length ≤ 1 ∧
    ∀ c ∈ deduplicate_comments comments, commentKey c = k →
      ∃ pre suf, comments = pre ++ c :: suf ∧
        (∀ d ∈ pre, commentKey d = k → d.confidence < c.confidence) ∧
        (∀ d ∈ suf, commentKey d = k → d.confidence ≤ c.confidence) := by
  have hperm := deduplicate_comments_perm comments
  obtain ⟨hok, hnd⟩ :=
    seenOk_foldl comments [] (fun p hp => absurd hp (List.not_mem_nil p)) (by simp)
  constructor
  · have hle := filter_key_le_one k hok hnd
    have heq := (hperm.filter (fun c => commentKey c = k)).length_eq
    omega
  · intro c hc hck
    have hc' : c ∈ (comments.foldl dedupInsert []).map Prod.snd := hperm.mem_iff.mp hc
    rcases List.mem_map.mp hc' with ⟨⟨kq, cq⟩, hq, hsnd⟩
    have hcq : cq = c := hsnd
    subst hcq
    have hkq : kq = commentKey cq := by simpa using hok _ hq
    have hlook : lookupSeen (comments.foldl dedupInsert []) kq = some cq :=
      lookupSeen_of_mem hq hnd
    rw [lookupSeen_foldl] at hlook
    have hbest : comments.foldl (bestStep kq) none = some cq := by
      simpa [lookupSeen] using hlook
    rcases bestFold_char kq comments none cq hbest with ⟨h1, _⟩ | ⟨_, pre, suf, heq, _, hpre, hsuf⟩
    · cases h1
    · have hkk : k = kq := (hkq.trans hck).symm
      subst hkk
      exact ⟨pre, suf, heq, hpre, hsuf⟩

/-- Same-key pair used to witness `C1_dedup_retention`: equal path, line
and body, strictly different confidences. -/
def dupKeyHi : Comment := ⟨"a.py", 3, "new", "logic", conf09, "same msg"⟩

/-- Low-confidence companion of `dupKeyHi` (same code key). -/
def dupKeyLo : Comment := ⟨"a.py", 3, "new", "style", conf05, "same msg"⟩

/-- Witness for `C1_dedup_retention` at a concrete batch. -/
theorem C1_dedup_retention_witness :
    ((deduplicate_comments [dupKeyHi, dupKeyLo]).filter
        (fun c => commentKey c = commentKey dupKeyHi)).length ≤ 1 ∧
    ∃ pre suf, ([dupKeyHi, dupKeyLo] : List Comment) = pre ++ dupKeyHi :: suf ∧
      (∀ d ∈ pre, commentKey d = commentKey dupKeyHi → d.confidence < dupKeyHi.confidence) ∧
      (∀ d ∈ suf, commentKey d = commentKey dupKeyHi → d.confidence ≤ dupKeyHi.confidence) :=
  ⟨(C1_dedup_retention [dupKeyHi, dupKeyLo] (commentKey dupKeyHi)).1,
   (C1_dedup_retention [dupKeyHi, dupKeyLo] (commentKey dupKeyHi)).2 dupKeyHi (by decide) rfl⟩

/-! ## Claim C6: determinism of the final output under permutations -/

/-- Finding with body "x"; shares path/line/confidence with `tieY` but not
its dedup key. -/
def tieX : Comment := ⟨"a.py", 3, "new", "logic", conf05, "x"⟩

/-- Finding with body "y". -/
def tieY : Comment := ⟨"a.py", 3, "new", "logic", conf05, "y"⟩

/-- C6, counterexample: two distinct findings at the same (path, line) with
different bodies survive deduplication, and the (path, line) sort is
stable, so swapping their arrival order swaps them in the final output;
the pipeline's result is NOT invariant under permutations of the collected
batch. -/
theorem C6_counterexample :
    List.Perm [tieX, tieY] [tieY, tieX] ∧
    deduplicate_comments [tieX, tieY] ≠ deduplicate_comments [tieY, tieX] :=
  ⟨List.Perm.swap tieY tieX [], by decide⟩

/-- C6, amended: what the code does guarantee is that the deduplicated
output is always sorted ascending by the Python sort key (path, line).
Full independence from arrival order fails (see the counterexample):
distinct retained findings that tie on (path, line) keep their arrival
order under the stable sort, and on exact confidence ties the retained
representative itself depends on arrival order. -/
theorem C6_output_sorted (comments : List Comment) :
    List.Pairwise (fun a b => sortKeyLt b a = false) (deduplicate_comments comments) := by
  unfold deduplicate_comments
  by_cases h : comments.isEmpty
  · rw [if_pos h]
    exact List.Pairwise.nil
  · rw [if_neg h]
    exact pySort_fold_pairwise _ [] List.Pairwise.nil

/-! ## Diff parser (`routes/review.py::parse_unified_diff`) -/

/-- One hunk as the parser emits it: header token plus captured lines. -/
structure Hunk where
  header : String
  lines : List String
  deriving DecidableEq, Repr

/-- One parsed file: path plus its hunks. -/
structure ParsedFile where
  path : String
  hunks : List Hunk
  deriving DecidableEq, Repr

/-- The parser's loop state: the four mutable locals of
`parse_unified_diff` plus the output accumulator `files`. -/
structure PState where
  files : List ParsedFile
  currentFile : Option String
  currentHunks : List Hunk
  currentHunkHeader : Option String
  currentHunkLines : List String
  deriving DecidableEq, Repr

/-- `save_current_hunk` (review.py:96-102): flush the pending hunk if it
has a header and at least one captured line.  Does not clear the pending
fields — exactly as the Python helper does not. -/
def saveCurrentHunk (s : PState) : PState :=
  match s.currentHunkHeader with
  | some hd =>
    if s.currentHunkLines.isEmpty then s
    else { s with currentHunks := s.currentHunks ++ [⟨hd, s.currentHunkLines⟩] }
  | none => s

/-- `save_current_file` (review.py:104-110): flush the pending file if it
has a path and at least one hunk.  Does not clear the pending fields. -/
def saveCurrentFile (s : PState) : PState :=
  match s.currentFile with
  | some p =>
    if s.currentHunks.isEmpty then s
    else { s with files := s.files ++ [⟨p, s.currentHunks⟩] }
  | none => s

/-- The regex `re.match(r"^(@@[^@]+@@)", line)` (review.py:135): from the
start, `@@`, a nonempty run of non-`@` characters, then `@@`; the capture
is that token.  Greedy `[^@]+` with the mandatory `@@` after it matches
iff the maximal non-`@` run after the opening `@@` is nonempty and is
followed by two `@`s. -/
def matchHunkHeader (line : String) : Option String :=
  if pyStartswith line "@@" then
    let rest := line.data.drop 2
    let mid := rest.takeWhile (fun c => !(c == '@'))
    if mid.isEmpty then none
    else if (rest.drop mid.length).take 2 = ['@', '@'] then
      some ⟨'@' :: '@' :: (mid ++ ['@', '@'])⟩
    else none
  else none

/-- One iteration of the `for line in lines` loop of `parse_unified_diff`
(review.py:112-146), with the `elif` chain in source order. -/
def parseLine (s : PState) (line : String) : PState :=
  if pyStartswith line "diff --git" = true then
    let s1 := saveCurrentFile (saveCurrentHunk s)
    { s1 with currentFile := none, currentHunks := [], currentHunkHeader := none,
              currentHunkLines := [] }
  else if pyStartswith line "+++ b/" = true then
    { s with currentFile := some (pyDrop line 6) }
  else if pyStartswith line "--- a/" = true ∧ s.currentFile = none then
    { s with currentFile := some (pyDrop line 6) }
  else if pyStartswith line "@@" = true then
    let s1 := saveCurrentHunk s
    match matchHunkHeader line with
    | some hd => { s1 with currentHunkHeader := some hd, currentHunkLines := [] }
    | none => s1
  else
    match s.currentHunkHeader with
    | some _ =>
      if pyStartswith line "+" = true ∨ pyStartswith line "-" = true ∨
          pyStartswith line " " = true then
        { s with currentHunkLines := s.currentHunkLines ++ [line] }
      else if ¬ line = "" ∧ ¬ pyStartswith line "\\" = true then
        if s.currentHunkLines.isEmpty then s
        else { s with currentHunkLines := s.currentHunkLines ++ [" " ++ line] }
      else s
    | none => s

/-- The parser's initial state. -/
def initPState : PState := ⟨[], none, [], none, []⟩

/-- The whole loop plus the final flush of the last hunk and file. -/
def parseLinesDiff (lines : List String) : List ParsedFile :=
  (saveCurrentFile (saveCurrentHunk (lines.foldl parseLine initPState))).files

/-- `parse_unified_diff` (review.py:70-153).  `Except.error` models the
raised `ValueError("Diff cannot be empty")`, the `ParseError` of the spec. -/
def parse_unified_diff (diff : String) : Except String (List ParsedFile) :=
  if pyStrip diff = "" then Except.error "Diff cannot be empty"
  else Except.ok (parseLinesDiff (pySplitNl diff))

/-! ## Rendering well-formed diffs, for the round-trip theorems -/

/-- A hunk to be rendered: `mid` is the inside of the `@@...@@` token. -/
structure HunkSpec where
  mid : String
  lines : List String
  deriving DecidableEq, Repr

/-- A file to be rendered into unified-diff lines. -/
structure FileSpec where
  path : String
  hunks : List HunkSpec
  deriving DecidableEq, Repr

/-- Render one hunk: header line followed by its body lines. -/
def renderHunkSpec (h : HunkSpec) : List String :=
  ("@@" ++ h.mid ++ "@@") :: h.lines

/-- Render one file: `diff --git` marker, old-path line, new-path line,
then the hunks. -/
def renderFileSpec (f : FileSpec) : List String :=
  ("diff --git a/" ++ f.path ++ " b/" ++ f.path) ::
  ("--- a/" ++ f.path) ::
  ("+++ b/" ++ f.path) ::
  f.hunks.flatMap renderHunkSpec

/-- Render a whole diff as its list of lines. -/
def renderDiffLines (fs : List FileSpec) : List String :=
  fs.flatMap renderFileSpec

/-- A tagged hunk-body line: begins with `+`, `-` or a space, and does not
collide with the `+++ b/` new-path marker the parser checks first. -/
def goodBodyLine (l : String) : Prop :=
  (pyStartswith l "+" = true ∨ pyStartswith l "-" = true ∨ pyStartswith l " " = true) ∧
  pyStartswith l "+++ b/" = false

/-- A well-formed hunk: nonempty body of tagged lines and a header token
the capture regex accepts. -/
def goodHunkSpec (h : HunkSpec) : Prop :=
  h.lines ≠ [] ∧ (∀ l ∈ h.lines, goodBodyLine l) ∧ h.mid ≠ "" ∧ ∀ c ∈ h.mid.data, c ≠ '@'

/-- A well-formed file: at least one well-formed hunk. -/
def goodFileSpec (f : FileSpec) : Prop :=
  f.hunks ≠ [] ∧ ∀ h ∈ f.hunks, goodHunkSpec h

/-- The parse result a rendered hunk should produce. -/
def hunkOfSpec (h : HunkSpec) : Hunk :=
  ⟨"@@" ++ h.mid ++ "@@", h.lines⟩

/-- The parse result a rendered file should produce. -/
def fileOfSpec (f : FileSpec) : ParsedFile :=
  ⟨f.path, f.hunks.map hunkOfSpec⟩

/-! ## String-level helper lemmas for the parser proofs -/

theorem stringExt {a b : String} (h : a.data = b.data) : a = b :=
  congrArg String.mk h

theorem string_ne_empty_of_data {s : String} (h : s.data ≠ []) : s ≠ "" := by
  intro he
  subst he
  exact h rfl

theorem isPrefixChars_append_self : ∀ (p r : List Char), isPrefixChars p (p ++ r) = true := by
  intro p r
  induction p with
  | nil => rfl
  | cons a as ih => simp [isPrefixChars, ih]

theorem isPrefixChars_append_left :
    ∀ (p q r : List Char), isPrefixChars p q = true → isPrefixChars p (q ++ r) = true := by
  intro p
  induction p with
  | nil => intro q r _; rfl
  | cons a as ih =>
    intro q r h
    cases q with
    | nil => simp [isPrefixChars] at h
    | cons b bs =>
      rw [isPrefixChars, Bool.and_eq_true] at h
      rw [List.cons_append, isPrefixChars, Bool.and_eq_true]
      exact ⟨h.1, ih bs r h.2⟩

theorem isPrefixChars_cons_false {a b : Char} (pt lt : List Char) (h : a ≠ b) :
    isPrefixChars (a :: pt) (b :: lt) = false := by
  simp [isPrefixChars, h]

theorem head_of_isPrefixChars {c : Char} {pt l : List Char}
    (h : isPrefixChars (c :: pt) l = true) : ∃ t, l = c :: t := by
  cases l with
  | nil => simp [isPrefixChars] at h
  | cons b bs =>
    rw [isPrefixChars, Bool.and_eq_true] at h
    have : c = b := by simpa using h.1
    exact ⟨bs, by rw [this]⟩

theorem pyStartswith_append_right (q r pre : String) (h : pyStartswith q pre = true) :
    pyStartswith (q ++ r) pre = true := by
  unfold pyStartswith at h ⊢
  rw [String.data_append]
  exact isPrefixChars_append_left _ _ _ h

theorem pyStartswith_self_append (pre r : String) : pyStartswith (pre ++ r) pre = true := by
  unfold pyStartswith
  rw [String.data_append]
  exact isPrefixChars_append_self _ _

theorem pyStartswith_head_ne {l pre : String} {a b : Char} {lt pt : List Char}
    (hl : l.data = a :: lt) (hp : pre.data = b :: pt) (h : b ≠ a) :
    pyStartswith l pre = false := by
  unfold pyStartswith
  rw [hl, hp]
  exact isPrefixChars_cons_false _ _ h

theorem pyStartswith_head {l pre : String} {c : Char} {pt : List Char}
    (hp : pre.data = c :: pt) (h : pyStartswith l pre = true) :
    ∃ t, l.data = c :: t := by
  unfold pyStartswith at h
  rw [hp] at h
  exact head_of_isPrefixChars h

theorem takeWhile_no_at (t : List Char) :
    ∀ (l : List Char), (∀ c ∈ l, c ≠ '@') →
      (l ++ '@' :: t).takeWhile (fun c => !(c == '@')) = l := by
  intro l
  induction l with
  | nil =>
    intro _
    simp [List.takeWhile]
  | cons a as ih =>
    intro h
    have ha : a ≠ '@' := h a (List.mem_cons_self _ _)
    have ha' : (!(a == '@')) = true := by simp [ha]
    simp only [List.cons_append, List.takeWhile, ha']
    exact congrArg (a :: ·) (ih (fun c hc => h c (List.mem_cons_of_mem _ hc)))

theorem eq_false_imp_not_true {b : Bool} (h : b = false) : ¬ b = true := by
  simp [h]

theorem psw_diffGit (p : String) :
    pyStartswith ("diff --git a/" ++ p ++ " b/" ++ p) "diff --git" = true :=
  pyStartswith_append_right _ _ _
    (pyStartswith_append_right _ _ _ (pyStartswith_append_right _ _ _ (by decide)))

theorem psw_minus_self (p : String) : pyStartswith ("--- a/" ++ p) "--- a/" = true :=
  pyStartswith_self_append _ _

theorem psw_plus_self (p : String) : pyStartswith ("+++ b/" ++ p) "+++ b/" = true :=
  pyStartswith_self_append _ _

theorem psw_header_at (mid : String) : pyStartswith ("@@" ++ mid ++ "@@") "@@" = true :=
  pyStartswith_append_right _ _ _ (pyStartswith_self_append _ _)

theorem data_diffGitLine (p : String) :
    ∃ t, ("diff --git a/" ++ p ++ " b/" ++ p).data = 'd' :: t :=
  ⟨_, rfl⟩

theorem data_minusLine (p : String) : ∃ t, ("--- a/" ++ p).data = '-' :: t :=
  ⟨_, rfl⟩

theorem data_plusLine (p : String) : ∃ t, ("+++ b/" ++ p).data = '+' :: t :=
  ⟨_, rfl⟩

theorem data_headerLine (mid : String) :
    ("@@" ++ mid ++ "@@").data = '@' :: '@' :: (mid.data ++ ['@', '@']) := by
  rw [String.data_append, String.data_append]
  rfl

theorem pyDrop_minus (p : String) : pyDrop ("--- a/" ++ p) 6 = p := rfl

theorem pyDrop_plus (p : String) : pyDrop ("+++ b/" ++ p) 6 = p := rfl

theorem saveCurrentHunk_files (s : PState) : (saveCurrentHunk s).files = s.files := by
  unfold saveCurrentHunk
  split
  · split <;> rfl
  · rfl

theorem saveCurrentHunk_currentFile (s : PState) :
    (saveCurrentHunk s).currentFile = s.currentFile := by
  unfold saveCurrentHunk
  split
  · split <;> rfl
  · rfl

theorem saveCurrentHunk_header (s : PState) :
    (saveCurrentHunk s).currentHunkHeader = s.currentHunkHeader := by
  unfold saveCurrentHunk
  split
  · split <;> rfl
  · rfl

theorem saveCurrentHunk_lines (s : PState) :
    (saveCurrentHunk s).currentHunkLines = s.currentHunkLines := by
  unfold saveCurrentHunk
  split
  · split <;> rfl
  · rfl

theorem saveCurrentHunk_none {s : PState} (h : s.currentHunkHeader = none) :
    saveCurrentHunk s = s := by
  unfold saveCurrentHunk
  rw [h]

theorem saveCurrentHunk_some {s : PState} {hd : String}
    (h : s.currentHunkHeader = some hd) (hne : s.currentHunkLines ≠ []) :
    saveCurrentHunk s =
      { s with currentHunks := s.currentHunks ++ [⟨hd, s.currentHunkLines⟩] } := by
  unfold saveCurrentHunk
  rw [h]
  have : s.currentHunkLines.isEmpty = false := by
    cases hc : s.currentHunkLines
    · exact absurd hc hne
    · rfl
  rw [this]
  rfl

theorem matchHunkHeader_render (mid : String) (hne : mid.data ≠ [])
    (hno : ∀ c ∈ mid.data, c ≠ '@') :
    matchHunkHeader ("@@" ++ mid ++ "@@") = some ("@@" ++ mid ++ "@@") := by
  unfold matchHunkHeader
  rw [if_pos (psw_header_at mid)]
  rw [data_headerLine]
  simp only [List.drop_succ_cons, List.drop_zero]
  rw [takeWhile_no_at _ mid.data hno]
  have h1 : mid.data.isEmpty = false := by
    cases hc : mid.data
    · exact absurd hc hne
    · rfl
  rw [h1]
  simp only [Bool.false_eq_true, if_false]
  rw [List.drop_left]
  simp only [List.take, if_pos rfl]
  exact congrArg some (stringExt (by rw [data_headerLine]))

theorem parseLine_diffGit (s : PState) (p : String) :
    parseLine s ("diff --git a/" ++ p ++ " b/" ++ p) =
      ⟨(saveCurrentFile (saveCurrentHunk s)).files, none, [], none, []⟩ := by
  unfold parseLine
  rw [if_pos (psw_diffGit p)]

theorem parseLine_minus (s : PState) (p : String) (hf : s.currentFile = none) :
    parseLine s ("--- a/" ++ p) = { s with currentFile := some p } := by
  obtain ⟨t, ht⟩ := data_minusLine p
  have h1 : pyStartswith ("--- a/" ++ p) "diff --git" = false :=
    pyStartswith_head_ne ht rfl (by decide)
  have h2 : pyStartswith ("--- a/" ++ p) "+++ b/" = false :=
    pyStartswith_head_ne ht rfl (by decide)
  unfold parseLine
  rw [if_neg (eq_false_imp_not_true h1), if_neg (eq_false_imp_not_true h2),
      if_pos ⟨psw_minus_self p, hf⟩, pyDrop_minus]

theorem parseLine_plus (s : PState) (p : String) :
    parseLine s ("+++ b/" ++ p) = { s with currentFile := some p } := by
  obtain ⟨t, ht⟩ := data_plusLine p
  have h1 : pyStartswith ("+++ b/" ++ p) "diff --git" = false :=
    pyStartswith_head_ne ht rfl (by decide)
  unfold parseLine
  rw [if_neg (eq_false_imp_not_true h1), if_pos (psw_plus_self p), pyDrop_plus]

theorem parseLine_header (s : PState) (mid : String) (hne : mid.data ≠ [])
    (hno : ∀ c ∈ mid.data, c ≠ '@') :
    parseLine s ("@@" ++ mid ++ "@@") =
      { saveCurrentHunk s with currentHunkHeader := some ("@@" ++ mid ++ "@@"),
                               currentHunkLines := [] } := by
  have hdata := data_headerLine mid
  have h1 : pyStartswith ("@@" ++ mid ++ "@@") "diff --git" = false :=
    pyStartswith_head_ne hdata rfl (by decide)
  have h2 : pyStartswith ("@@" ++ mid ++ "@@") "+++ b/" = false :=
    pyStartswith_head_ne hdata rfl (by decide)
  have h3 : pyStartswith ("@@" ++ mid ++ "@@") "--- a/" = false :=
    pyStartswith_head_ne hdata rfl (by decide)
  unfold parseLine
  rw [if_neg (eq_false_imp_not_true h1), if_neg (eq_false_imp_not_true h2),
      if_neg (fun hc => (eq_false_imp_not_true h3) hc.1),
      if_pos (psw_header_at mid), matchHunkHeader_render mid hne hno]

theorem parseLine_body (s : PState) (l : String) (hd : String)
    (hf : ∃ p, s.currentFile = some p) (hh : s.currentHunkHeader = some hd)
    (hg : goodBodyLine l) :
    parseLine s l = { s with currentHunkLines := s.currentHunkLines ++ [l] } := by
  obtain ⟨htag, hplus⟩ := hg
  have hhead : ∃ c t, l.data = c :: t ∧ (c = '+' ∨ c = '-' ∨ c = ' ') := by
    rcases htag with h | h | h
    · obtain ⟨t, ht⟩ := pyStartswith_head rfl h
      exact ⟨'+', t, ht, Or.inl rfl⟩
    · obtain ⟨t, ht⟩ := pyStartswith_head rfl h
      exact ⟨'-', t, ht, Or.inr (Or.inl rfl)⟩
    · obtain ⟨t, ht⟩ := pyStartswith_head rfl h
      exact ⟨' ', t, ht, Or.inr (Or.inr rfl)⟩
  obtain ⟨c, t, hlt, hc⟩ := hhead
  have h1 : pyStartswith l "diff --git" = false :=
    pyStartswith_head_ne hlt rfl (by rcases hc with rfl | rfl | rfl <;> decide)
  have h4 : pyStartswith l "@@" = false :=
    pyStartswith_head_ne hlt rfl (by rcases hc with rfl | rfl | rfl <;> decide)
  unfold parseLine
  rw [if_neg (eq_false_imp_not_true h1), if_neg (eq_false_imp_not_true hplus),
      if_neg (fun hcontr => by
        obtain ⟨p, hp⟩ := hf
        rw [hp] at hcontr
        cases hcontr.2),
      if_neg (eq_false_imp_not_true h4), hh]
  rw [if_pos htag]

theorem processHunkLines (ls : List String) :
    ∀ (s : PState) (p hd : String),
      s.currentFile = some p → s.currentHunkHeader = some hd →
      (∀ l ∈ ls, goodBodyLine l) →
      ls.foldl parseLine s = { s with currentHunkLines := s.currentHunkLines ++ ls } := by
  induction ls with
  | nil => intro s p hd _ _ _; simp
  | cons l ls ih =>
    intro s p hd hf hh hg
    rw [List.foldl_cons, parseLine_body s l hd ⟨p, hf⟩ hh (hg l (List.mem_cons_self _ _))]
    have hstep := ih { s with currentHunkLines := s.currentHunkLines ++ [l] } p hd hf hh
      (fun x hx => hg x (List.mem_cons_of_mem _ hx))
    rw [hstep]
    simp

theorem saveCurrentFile_of {Y : PState} {p : String} {F : List ParsedFile}
    {hk : List Hunk} (h1 : Y.currentFile = some p) (h2 : Y.currentHunks = hk)
    (h3 : Y.files = F) (hne : hk ≠ []) :
    (saveCurrentFile Y).files = F ++ [⟨p, hk⟩] := by
  unfold saveCurrentFile
  rw [h1]
  have hemp : Y.currentHunks.isEmpty = false := by
    rw [h2]
    cases hk
    · exact absurd rfl hne
    · rfl
  rw [hemp]
  simp [h2, h3]

theorem processHunks (hs : List HunkSpec) :
    ∀ (s : PState) (p : String),
      s.currentFile = some p → (∀ h ∈ hs, goodHunkSpec h) →
      (saveCurrentHunk (List.foldl parseLine s (hs.flatMap renderHunkSpec))).files = s.files ∧
      (saveCurrentHunk (List.foldl parseLine s (hs.flatMap renderHunkSpec))).currentFile
        = some p ∧
      (saveCurrentHunk (List.foldl parseLine s (hs.flatMap renderHunkSpec))).currentHunks =
        (saveCurrentHunk s).currentHunks ++ hs.map hunkOfSpec := by
  induction hs with
  | nil =>
    intro s p hf _
    refine ⟨saveCurrentHunk_files s, ?_, by simp⟩
    rw [saveCurrentHunk_currentFile]
    exact hf
  | cons h hs ih =>
    intro s p hf hg
    obtain ⟨hlz, hgl, hmid, hno⟩ := hg h (List.mem_cons_self _ _)
    have hmidd : h.mid.data ≠ [] := by
      intro hc
      exact hmid (stringExt (by rw [hc]))
    have hflat : (h :: hs).flatMap renderHunkSpec =
        ("@@" ++ h.mid ++ "@@") :: (h.lines ++ hs.flatMap renderHunkSpec) := by
      simp [renderHunkSpec]
    rw [hflat, List.foldl_cons, parseLine_header s h.mid hmidd hno]
    set s' : PState := { saveCurrentHunk s with
      currentHunkHeader := some ("@@" ++ h.mid ++ "@@"), currentHunkLines := [] } with hs'
    have hf' : s'.currentFile = some p := by
      rw [hs']
      show (saveCurrentHunk s).currentFile = some p
      rw [saveCurrentHunk_currentFile]
      exact hf
    rw [List.foldl_append]
    rw [processHunkLines h.lines s' p ("@@" ++ h.mid ++ "@@") hf' rfl hgl]
    set s'' : PState := { s' with currentHunkLines := s'.currentHunkLines ++ h.lines } with hs''
    have hf'' : s''.currentFile = some p := hf'
    obtain ⟨ihf, ihc, ihh⟩ := ih s'' p hf'' (fun x hx => hg x (List.mem_cons_of_mem _ hx))
    refine ⟨?_, ihc, ?_⟩
    · rw [ihf, hs'', hs']
      show (saveCurrentHunk s).files = s.files
      exact saveCurrentHunk_files s
    · rw [ihh]
      have hsave : saveCurrentHunk s'' =
          { s'' with currentHunks := s''.currentHunks ++ [⟨"@@" ++ h.mid ++ "@@", h.lines⟩] } := by
        apply saveCurrentHunk_some
        · rfl
        · show ([] : List String) ++ h.lines ≠ []
          simpa using hlz
      rw [hsave]
      show (s''.currentHunks ++ [⟨"@@" ++ h.mid ++ "@@", h.lines⟩]) ++ hs.map hunkOfSpec =
        (saveCurrentHunk s).currentHunks ++ (h :: hs).map hunkOfSpec
      have : s''.currentHunks = (saveCurrentHunk s).currentHunks := rfl
      rw [this]
      simp [hunkOfSpec]

theorem processFiles (fs : List FileSpec) :
    ∀ (s : PState), (∀ f ∈ fs, goodFileSpec f) →
      (saveCurrentFile (saveCurrentHunk
          (List.foldl parseLine s (fs.flatMap renderFileSpec)))).files =
        (saveCurrentFile (saveCurrentHunk s)).files ++ fs.map fileOfSpec := by
  induction fs with
  | nil => intro s _; simp
  | cons f fs ih =>
    intro s hg
    obtain ⟨hhne, hgh⟩ := hg f (List.mem_cons_self _ _)
    have hflat : (f :: fs).flatMap renderFileSpec =
        ("diff --git a/" ++ f.path ++ " b/" ++ f.path) ::
        ("--- a/" ++ f.path) :: ("+++ b/" ++ f.path) ::
        (f.hunks.flatMap renderHunkSpec ++ fs.flatMap renderFileSpec) := by
      simp [renderFileSpec]
    rw [hflat, List.foldl_cons, parseLine_diffGit, List.foldl_cons,
        parseLine_minus _ f.path rfl, List.foldl_cons, parseLine_plus, List.foldl_append]
    obtain ⟨ph1, ph2, ph3⟩ := processHunks f.hunks
      (⟨(saveCurrentFile (saveCurrentHunk s)).files, some f.path, [], none, []⟩ : PState)
      f.path rfl hgh
    rw [ih _ (fun x hx => hg x (List.mem_cons_of_mem _ hx))]
    have hmapne : f.hunks.map hunkOfSpec ≠ [] := by
      simpa using hhne
    have ph3' : (saveCurrentHunk (List.foldl parseLine
        (⟨(saveCurrentFile (saveCurrentHunk s)).files, some f.path, [], none, []⟩ : PState)
        (f.hunks.flatMap renderHunkSpec))).currentHunks = f.hunks.map hunkOfSpec := by
      rw [ph3, saveCurrentHunk_none rfl]
      simp
    rw [saveCurrentFile_of ph2 ph3' ph1 hmapne]
    simp [fileOfSpec]

/-- Round trip: parsing the rendering of well-formed file specs returns
exactly those files, in order. -/
theorem parse_render (fs : List FileSpec) (h : ∀ f ∈ fs, goodFileSpec f) :
    parseLinesDiff (renderDiffLines fs) = fs.map fileOfSpec := by
  unfold parseLinesDiff renderDiffLines
  rw [processFiles fs initPState h]
  rfl

/-! ## Claim C7: empty input is rejected -/

theorem pyStrip_all_space {s : String} (h : ∀ c ∈ s.data, pyIsSpace c = true) :
    pyStrip s = "" := by
  unfold pyStrip
  have h1 : s.data.dropWhile pyIsSpace = [] := by
    rw [List.dropWhile_eq_nil_iff]
    exact h
  rw [h1]
  rfl

/-- C7 (confirmed): an input that is empty or consists only of whitespace
makes `parse_unified_diff` raise `ValueError("Diff cannot be empty")`
immediately; the error return carries no `ParsedFile` at all. -/
theorem C7_empty_rejected (s : String) (h : ∀ c ∈ s.data, pyIsSpace c = true) :
    parse_unified_diff s = Except.error "Diff cannot be empty" := by
  unfold parse_unified_diff
  rw [if_pos (pyStrip_all_space h)]

/-- Witness for `C7_empty_rejected` on a whitespace-only input. -/
theorem C7_empty_rejected_witness :
    parse_unified_diff "  \n\t " = Except.error "Diff cannot be empty" :=
  C7_empty_rejected "  \n\t " (by decide)

/-! ## Claim C4: k files in, k files out, with nonempty hunks -/

instance decGoodBodyLine (l : String) : Decidable (goodBodyLine l) := by
  unfold goodBodyLine
  infer_instance

instance decGoodHunkSpec (h : HunkSpec) : Decidable (goodHunkSpec h) := by
  unfold goodHunkSpec
  infer_instance

instance decGoodFileSpec (f : FileSpec) : Decidable (goodFileSpec f) := by
  unfold goodFileSpec
  infer_instance

deriving instance DecidableEq for Except

/-- A valid one-file diff whose only hunk body line is the added line
`+++ b/x` (diff content `++ b/x` tagged with `+`). -/
def collidingDiff : String :=
  "diff --git a/f b/f\n--- a/f\n+++ b/f\n@@ -1 +1 @@\n+++ b/x"

/-- C4, counterexample: `collidingDiff` contains one changed file whose
hunk body is the single `+`-tagged line `+++ b/x`; its line list is
exactly the rendering of that one-file spec.  The parser returns zero
`ParsedFile` entries, not one: the `+++ b/` branch is checked before the
hunk-content branch, so the line is consumed as a path marker, the hunk
stays empty and the file is dropped. -/
theorem C4_counterexample :
    pyStartswith "+++ b/x" "+" = true ∧
    pySplitNl collidingDiff =
      renderDiffLines [⟨"f", [⟨" -1 +1 ", ["+++ b/x"]⟩]⟩] ∧
    parse_unified_diff collidingDiff = Except.ok [] := by
  refine ⟨by decide, by decide, by decide⟩

/-- C4, amended: for a diff whose lines render k distinct well-formed
files in which every hunk body line is tagged (`+`, `-` or space) and no
body line begins with `+++ b/`, the parser returns exactly k entries in
input order, each with at least one hunk and every hunk with at least one
captured line. -/
theorem C4_parse_files (fs : List FileSpec) (s : String)
    (hgood : ∀ f ∈ fs, goodFileSpec f)
    (_hnodup : (fs.map FileSpec.path).Nodup)
    (hsplit : pySplitNl s = renderDiffLines fs)
    (hne : ¬ pyStrip s = "") :
    ∃ out, parse_unified_diff s = Except.ok out ∧
      out.length = fs.length ∧
      out.map ParsedFile.path = fs.map FileSpec.path ∧
      ∀ pf ∈ out, pf.hunks ≠ [] ∧ ∀ hk ∈ pf.hunks, hk.lines ≠ [] := by
  refine ⟨fs.map fileOfSpec, ?_, by simp, ?_, ?_⟩
  · unfold parse_unified_diff
    rw [if_neg hne, hsplit, parse_render fs hgood]
  · simp [fileOfSpec]
  · intro pf hpf
    rcases List.mem_map.mp hpf with ⟨f, hf, rfl⟩
    obtain ⟨h1, h2⟩ := hgood f hf
    constructor
    · simpa [fileOfSpec] using h1
    · intro hk hhk
      rcases List.mem_map.mp (by simpa [fileOfSpec] using hhk) with ⟨hsp, hin, rfl⟩
      simpa [hunkOfSpec] using (h2 hsp hin).1

/-- Two-file well-formed spec used to witness `C4_parse_files`. -/
def wFs : List FileSpec :=
  [⟨"f", [⟨" -1,2 +1,2 ", ["+a", "-b", " c"]⟩]⟩, ⟨"g", [⟨" -3 +3 ", ["+x"]⟩]⟩]

/-- Its rendering as one diff string. -/
def wDiff : String :=
  "diff --git a/f b/f\n--- a/f\n+++ b/f\n@@ -1,2 +1,2 @@\n+a\n-b\n c\ndiff --git a/g b/g\n--- a/g\n+++ b/g\n@@ -3 +3 @@\n+x"

/-- Witness for `C4_parse_files` on a concrete two-file diff. -/
theorem C4_parse_files_witness :
    ∃ out, parse_unified_diff wDiff = Except.ok out ∧
      out.length = wFs.length ∧
      out.map ParsedFile.path = wFs.map FileSpec.path ∧
      ∀ pf ∈ out, pf.hunks ≠ [] ∧ ∀ hk ∈ pf.hunks, hk.lines ≠ [] :=
  C4_parse_files wFs wDiff (by decide) (by decide) (by decide) (by decide)

/-! ## Claim C5: hunk bodies are captured verbatim -/

/-- A valid one-file diff whose hunk body is `+a`, `+++ b/x`, `+c`. -/
def lineLossDiff : String :=
  "diff --git a/f b/f\n--- a/f\n+++ b/f\n@@ -1 +1 @@\n+a\n+++ b/x\n+c"

/-- C5, counterexample: the hunk body of `lineLossDiff` consists of the
three `+`-tagged lines `+a`, `+++ b/x`, `+c`, yet the parsed hunk captures
only `+a` and `+c`: the body line `+++ b/x` is consumed by the earlier
new-path branch (which also rewrites the file's path to `x`), so
reassembling the captured lines does not reproduce the hunk body — an
input line is lost. -/
theorem C5_counterexample :
    pyStartswith "+++ b/x" "+" = true ∧
    parse_unified_diff lineLossDiff =
      Except.ok [⟨"x", [⟨"@@ -1 +1 @@", ["+a", "+c"]⟩]⟩] := by
  refine ⟨by decide, by decide⟩

/-- C5, amended: for hunks whose body lines are tagged (`+`, `-` or
space) and contain no line beginning with `+++ b/`, the parser captures
each hunk's body verbatim: the captured line lists equal the input body
line lists exactly (no line lost, no line altered). -/
theorem C5_hunk_lines_preserved (fs : List FileSpec) (s : String)
    (hgood : ∀ f ∈ fs, goodFileSpec f)
    (hsplit : pySplitNl s = renderDiffLines fs)
    (hne : ¬ pyStrip s = "") :
    ∃ out, parse_unified_diff s = Except.ok out ∧
      out.map (fun pf => pf.hunks.map Hunk.lines) =
        fs.map (fun f => f.hunks.map HunkSpec.lines) := by
  refine ⟨fs.map fileOfSpec, ?_, ?_⟩
  · unfold parse_unified_diff
    rw [if_neg hne, hsplit, parse_render fs hgood]
  · simp [fileOfSpec, hunkOfSpec, List.map_map]

/-- One-file spec used to witness `C5_hunk_lines_preserved`. -/
def wFs5 : List FileSpec := [⟨"m", [⟨" -7 +7,2 ", ["+p", " q"]⟩]⟩]

/-- Its rendering as one diff string. -/
def wDiff5 : String :=
  "diff --git a/m b/m\n--- a/m\n+++ b/m\n@@ -7 +7,2 @@\n+p\n q"

/-- Witness for `C5_hunk_lines_preserved` on a concrete diff. -/
theorem C5_hunk_lines_preserved_witness :
    ∃ out, parse_unified_diff wDiff5 = Except.ok out ∧
      out.map (fun pf => pf.hunks.map Hunk.lines) =
        wFs5.map (fun f => f.hunks.map HunkSpec.lines) :=
  C5_hunk_lines_preserved wFs5 wDiff5 (by decide) (by decide) (by decide)

/-! ## Result normalizer (`agents/base_agent.py`)

`_format_output` takes the producer's raw text, runs `json.loads` on it
and, on failure, scans for bracket-delimited substrings and parses each
independently (`_fallback_parse`).  The JSON library and the regex scan
are external to this repository's logic; they are modeled at their
output boundary: `RawResp.strict` is the decoded value of the whole
response (`none` = `json.JSONDecodeError`) and `RawResp.fallbackMatches`
are the decoded values of the bracket substrings that parsed (substrings
that fail to parse are caught and skipped, contributing nothing).
JSON `true`/`false`/`null` values are not modeled; on every field the
claims touch they behave like the other non-numeric, non-string cases. -/

/-- A decoded JSON value. -/
inductive JVal where
  | num (q : ℚ)
  | str (s : String)
  | arr (items : List JVal)
  | obj (fields : List (String × JVal))

/-- Python `item.get(key, default)`.  Decoded JSON objects are dicts, so
the field lists carry each key at most once. -/
def getField : List (String × JVal) → String → JVal → JVal
  | [], _, d => d
  | (k', v) :: rest, k, d => if k' = k then v else getField rest k d

/-- Python `key in item`. -/
def hasField (fields : List (String × JVal)) (k : String) : Bool :=
  fields.any (fun p => decide (p.1 = k))

/-- The exception classes the two parse paths distinguish:
`_format_output` catches `ValueError`/`KeyError`/`TypeError` per item;
`_fallback_parse` catches `JSONDecodeError`/`ValueError`/`KeyError` per
match; `AttributeError` (from `.strip()` on a non-string body) and, in
the fallback, `TypeError` escape the function entirely. -/
inductive PyExn where
  | valueError
  | typeError
  | attrError
  deriving DecidableEq, Repr

/-- Python `int(float)`: truncation toward zero. -/
def pytrunc (q : ℚ) : Int :=
  if 0 ≤ q then ⌊q⌋ else ⌈q⌉

/-- Digit-string value. -/
def digitsVal (l : List Char) : Nat :=
  l.foldl (fun acc c => acc * 10 + (c.toNat - '0'.toNat)) 0

/-- Nonempty all-digit run. -/
def allDigits1 (l : List Char) : Bool :=
  !l.isEmpty && l.all (fun c => c.isDigit)

/-- Python `int(s)` on a string: strip, optional sign, digits.
(Underscore separators and other exotic forms are not modeled.) -/
def pyIntOfString (s : String) : Option Int :=
  match (pyStrip s).data with
  | '+' :: ds => if allDigits1 ds then some (Int.ofNat (digitsVal ds)) else none
  | '-' :: ds => if allDigits1 ds then some (-(Int.ofNat (digitsVal ds))) else none
  | ds => if allDigits1 ds then some (Int.ofNat (digitsVal ds)) else none

/-- Python `float(s)` on a string: strip, optional sign, digits with an
optional fractional part.  (Exponent, `inf` and `nan` forms are not
modeled; no claim evaluates them.) -/
def pyFloatOfString (s : String) : Option ℚ :=
  let core : List Char → Option ℚ := fun l =>
    let ip := l.takeWhile (fun c => c.isDigit)
    match l.drop ip.length with
    | [] => if ip.isEmpty then none else some (digitsVal ip : ℚ)
    | '.' :: fp =>
      if fp.all (fun c => c.isDigit) then
        if ip.isEmpty && fp.isEmpty then none
        else some ((digitsVal ip : ℚ) + (digitsVal fp : ℚ) / ((10 : ℚ) ^ fp.length))
      else none
    | _ => none
  match (pyStrip s).data with
  | '+' :: l => core l
  | '-' :: l => (core l).map Neg.neg
  | l => core l

/-- Python `int(x)` on a decoded JSON value. -/
def pyIntOf : JVal → Except PyExn Int
  | .num q => .ok (pytrunc q)
  | .str s =>
    match pyIntOfString s with
    | some n => .ok n
    | none => .error .valueError
  | .arr _ => .error .typeError
  | .obj _ => .error .typeError

/-- Python `float(x)` on a decoded JSON value. -/
def pyFloatOf : JVal → Except PyExn ℚ
  | .num q => .ok q
  | .str s =>
    match pyFloatOfString s with
    | some q => .ok q
    | none => .error .valueError
  | .arr _ => .error .typeError
  | .obj _ => .error .typeError

/-- Rendering used to park a decoded value in a `String`-typed record
field of the model.  Python keeps the raw object in the dict; no theorem
inspects these renderings, and string values — the only case the claims
exercise — are kept verbatim. -/
def jvalFieldStr : JVal → String
  | .str s => s
  | .num q => toString q
  | .arr _ => "<list>"
  | .obj _ => "<dict>"

/-- Whether pydantic v1's `str` field type accepts the value (it coerces
numbers, rejects lists and dicts with a `ValidationError`, a subclass of
`ValueError`, which `_format_output` catches). -/
def strCoercible : JVal → Bool
  | .str _ => true
  | .num _ => true
  | .arr _ => false
  | .obj _ => false

/-- Default confidence of the strict path (`0.7`, base_agent.py:102),
written without normalization so kernel reduction can evaluate it. -/
def strictDefaultConf : ℚ := ⟨7, 10, by norm_num, by norm_num⟩

/-- Default confidence of the fallback path (`0.5`, base_agent.py:161). -/
def fallbackDefaultConf : ℚ := ⟨1, 2, by norm_num, by norm_num⟩

/-- Outcome of processing one candidate object on the strict path. -/
inductive ItemResult where
  | keep (c : Comment)
  | skip
  | crash
  deriving Repr

/-- One iteration of the `for item in parsed` loop of `_format_output`
(base_agent.py:91-123), in source evaluation order: `int(line)` and
`float(confidence)` raise `ValueError`/`TypeError` (caught → skip);
`.strip()` on a non-string body raises `AttributeError` (uncaught →
crash); an empty stripped body is skipped; the confidence is clamped;
the side is forced into {new, old}; `ReviewComment(**comment)` re-raises
`ValidationError` (⊂ `ValueError`, caught → skip) when `line ≤ 0` or a
`str` field gets an uncoercible value. -/
def processStrictItem (fields : List (String × JVal)) (filePath category : String) :
    ItemResult :=
  let pathV := getField fields "path" (.str filePath)
  match pyIntOf (getField fields "line" (.num 1)) with
  | .error _ => ItemResult.skip
  | .ok line =>
    let sideV := getField fields "side" (.str "new")
    let catV := getField fields "category" (.str category)
    match pyFloatOf (getField fields "confidence" (.num strictDefaultConf)) with
    | .error _ => ItemResult.skip
    | .ok conf0 =>
      match getField fields "body" (.str "") with
      | .str bodyRaw =>
        let body := pyStrip bodyRaw
        if body = "" then ItemResult.skip
        else
          let conf := max 0 (min 1 conf0)
          let side :=
            match sideV with
            | .str s => if s = "new" ∨ s = "old" then s else "new"
            | _ => "new"
          if 0 < line ∧ strCoercible pathV = true ∧ strCoercible catV = true then
            ItemResult.keep ⟨jvalFieldStr pathV, line, side, jvalFieldStr catV, conf, body⟩
          else ItemResult.skip
      | _ => ItemResult.crash

/-- The strict-path item loop; `none` models the uncaught
`AttributeError` escaping `_format_output`. -/
def processStrictItems (filePath category : String) : List JVal → Option (List Comment)
  | [] => some []
  | item :: rest =>
    match item with
    | .obj fields =>
      match processStrictItem fields filePath category with
      | .keep c => (processStrictItems filePath category rest).map (fun cs => c :: cs)
      | .skip => processStrictItems filePath category rest
      | .crash => none
    | _ => processStrictItems filePath category rest

/-- The strict path of `_format_output` (base_agent.py:78-126) on the
decoded response value: a dict is wrapped into a one-item list; anything
that is neither list nor dict returns `[]`. -/
def formatOutputStrict (parsed : JVal) (filePath category : String) :
    Option (List Comment) :=
  match parsed with
  | .obj fields => processStrictItems filePath category [JVal.obj fields]
  | .arr items => processStrictItems filePath category items
  | _ => some []

/-- The dict built at base_agent.py:156-163 / 165-172: no clamping, no
side validation, no body-emptiness check, no pydantic validation. -/
def buildFallbackComment (fields : List (String × JVal)) (filePath category : String) :
    Except PyExn Comment :=
  let pathV := getField fields "path" (.str filePath)
  match pyIntOf (getField fields "line" (.num 1)) with
  | .error e => .error e
  | .ok line =>
    let sideV := getField fields "side" (.str "new")
    let catV := getField fields "category" (.str category)
    match pyFloatOf (getField fields "confidence" (.num fallbackDefaultConf)) with
    | .error e => .error e
    | .ok conf =>
      match getField fields "body" (.str "") with
      | .str bodyRaw =>
        .ok ⟨jvalFieldStr pathV, line, jvalFieldStr sideV, jvalFieldStr catV, conf,
             pyStrip bodyRaw⟩
      | _ => .error .attrError

/-- Items of one array-shaped fallback match: an exception stops the rest
of this match's items but keeps what was already appended; the exception
class travels with the partial result. -/
def processFallbackItems (filePath category : String) :
    List JVal → List Comment × Option PyExn
  | [] => ([], none)
  | item :: rest =>
    match item with
    | .obj fields =>
      if hasField fields "body" then
        match buildFallbackComment fields filePath category with
        | .ok c =>
          let r := processFallbackItems filePath category rest
          (c :: r.1, r.2)
        | .error e => ([], some e)
      else processFallbackItems filePath category rest
    | _ => processFallbackItems filePath category rest

/-- One decoded fallback match (base_agent.py:150-174): arrays are
scanned item by item, lone dicts with a `body` key are taken directly,
anything else contributes nothing. -/
def processFallbackMatch (filePath category : String) : JVal → List Comment × Option PyExn
  | .arr items => processFallbackItems filePath category items
  | .obj fields =>
    if hasField fields "body" then
      match buildFallbackComment fields filePath category with
      | .ok c => ([c], none)
      | .error e => ([], some e)
    else ([], none)
  | _ => ([], none)

/-- `_fallback_parse` over the decoded matches: `ValueError` (and the
`KeyError`/`JSONDecodeError` cases that cannot arise post-decoding) is
caught per match and scanning continues; `TypeError`/`AttributeError`
escape the function — `none` — losing even previously collected
comments. -/
def fallback_parse (filePath category : String) : List JVal → Option (List Comment)
  | [] => some []
  | m :: rest =>
    match processFallbackMatch filePath category m with
    | (cs, none) => (fallback_parse filePath category rest).map (fun acc => cs ++ acc)
    | (cs, some PyExn.valueError) =>
      (fallback_parse filePath category rest).map (fun acc => cs ++ acc)
    | (_, some _) => none

/-- The decoded form of one raw producer response. -/
structure RawResp where
  strict : Option JVal
  fallbackMatches : List JVal

/-- `_format_output` (base_agent.py:67-130): strict parse if `json.loads`
succeeded, else the fallback scan. -/
def format_output (r : RawResp) (filePath category : String) : Option (List Comment) :=
  match r.strict with
  | some parsed => formatOutputStrict parsed filePath category
  | none => fallback_parse filePath category r.fallbackMatches

/-! ## Claims C2 and C3: clamping and body-emptiness at ingestion -/

/-- 1.5 (the claim's out-of-range input), kernel-reducible form. -/
def conf15 : ℚ := ⟨3, 2, by norm_num, by norm_num⟩

/-- −0.2 (the claim's out-of-range input), kernel-reducible form. -/
def confNeg02 : ℚ := ⟨-1, 5, by norm_num, by norm_num⟩

/-- Every comment the strict path keeps has a clamped confidence and a
nonempty stripped body. -/
theorem processStrictItem_keep {fields : List (String × JVal)} {fp cat : String}
    {c : Comment} (h : processStrictItem fields fp cat = ItemResult.keep c) :
    0 ≤ c.confidence ∧ c.confidence ≤ 1 ∧ c.body ≠ "" := by
  simp only [processStrictItem] at h
  split at h
  · exact ItemResult.noConfusion h
  · split at h
    · exact ItemResult.noConfusion h
    · split at h
      · split at h
        · exact ItemResult.noConfusion h
        · rename_i bodyRaw hbody
          split at h
          · injection h with h2
            subst h2
            refine ⟨le_max_left _ _, max_le zero_le_one (min_le_left _ _), hbody⟩
          · exact ItemResult.noConfusion h
      · exact ItemResult.noConfusion h

/-- List version of `processStrictItem_keep` over the item loop. -/
theorem processStrictItems_mem {fp cat : String} :
    ∀ {items : List JVal} {out : List Comment},
      processStrictItems fp cat items = some out →
      ∀ c ∈ out, 0 ≤ c.confidence ∧ c.confidence ≤ 1 ∧ c.body ≠ "" := by
  intro items
  induction items with
  | nil =>
    intro out h
    injection h with h2
    subst h2
    intro c hc
    cases hc
  | cons item rest ih =>
    intro out h
    simp only [processStrictItems] at h
    split at h
    · rename_i fields
      split at h
      · rename_i c0 hkeep
        cases hrec : processStrictItems fp cat rest with
        | none => rw [hrec] at h; cases h
        | some cs =>
          rw [hrec] at h
          simp only [Option.map_some'] at h
          injection h with h2
          subst h2
          intro c hc
          rcases List.mem_cons.mp hc with rfl | hc'
          · exact processStrictItem_keep hkeep
          · exact ih hrec c hc'
      · exact ih h
      · cases h
    · exact ih h

/-- C2, counterexample: a raw response that fails strict JSON parsing and
whose fallback scan finds `[{"body": "bad bounds", "confidence": 1.5}]`
delivers a finding with confidence 1.5 to the caller — the fallback parse
path performs no clamping, so the claim's "holds on both parse paths" is
false. -/
theorem C2_counterexample :
    format_output ⟨none, [JVal.arr [JVal.obj [("body", JVal.str "bad bounds"),
        ("confidence", JVal.num conf15)]]]⟩ "f.py" "logic" =
      some [⟨"f.py", 1, "new", "logic", conf15, "bad bounds"⟩] ∧
    (1 : ℚ) < conf15 := by
  exact ⟨by decide, by decide⟩

/-- C2, amended: on the STRICT parse path every finding delivered to the
caller has its confidence clamped into [0, 1] — in particular −0.2 is
clamped to 0.0 and 1.5 to 1.0; on the fallback parse path the confidence
is passed through unclamped (see the counterexample). -/
theorem C2_confidence_clamped :
    (∀ (parsed : JVal) (fp cat : String) (out : List Comment),
        formatOutputStrict parsed fp cat = some out →
        ∀ c ∈ out, 0 ≤ c.confidence ∧ c.confidence ≤ 1) ∧
    formatOutputStrict (JVal.arr [JVal.obj [("body", JVal.str "b"),
        ("confidence", JVal.num confNeg02)]]) "f" "logic" =
      some [⟨"f", 1, "new", "logic", 0, "b"⟩] ∧
    formatOutputStrict (JVal.arr [JVal.obj [("body", JVal.str "b"),
        ("confidence", JVal.num conf15)]]) "f" "logic" =
      some [⟨"f", 1, "new", "logic", 1, "b"⟩] := by
  refine ⟨?_, by decide, by decide⟩
  intro parsed fp cat out h c hc
  cases parsed with
  | obj fields =>
    simp only [formatOutputStrict] at h
    exact ⟨(processStrictItems_mem h c hc).1, (processStrictItems_mem h c hc).2.1⟩
  | arr items =>
    simp only [formatOutputStrict] at h
    exact ⟨(processStrictItems_mem h c hc).1, (processStrictItems_mem h c hc).2.1⟩
  | num q =>
    simp only [formatOutputStrict] at h
    injection h with h2
    subst h2
    cases hc
  | str s =>
    simp only [formatOutputStrict] at h
    injection h with h2
    subst h2
    cases hc

/-- Witness for `C2_confidence_clamped` at a concrete strict-path input. -/
theorem C2_confidence_clamped_witness :
    0 ≤ (⟨"f", 1, "new", "logic", 1, "b"⟩ : Comment).confidence ∧
    (⟨"f", 1, "new", "logic", 1, "b"⟩ : Comment).confidence ≤ 1 :=
  C2_confidence_clamped.1
    (JVal.arr [JVal.obj [("body", JVal.str "b"), ("confidence", JVal.num conf15)]])
    "f" "logic" [⟨"f", 1, "new", "logic", 1, "b"⟩] (by decide)
    ⟨"f", 1, "new", "logic", 1, "b"⟩ (by decide)

/-- C3, counterexample: a raw response that fails strict JSON parsing and
whose fallback scan finds `{"body": "   "}` delivers a finding whose body
is empty after trimming — the fallback path keeps any candidate that
merely HAS a `body` key, so the claim's "on both parse paths" is false. -/
theorem C3_counterexample :
    pyStrip "   " = "" ∧
    format_output ⟨none, [JVal.obj [("body", JVal.str "   ")]]⟩ "f.py" "logic" =
      some [⟨"f.py", 1, "new", "logic", fallbackDefaultConf, ""⟩] := by
  exact ⟨by decide, by decide⟩

/-- C3, amended: on the STRICT parse path every finding delivered to the
caller has a body that is nonempty after trimming — a candidate whose
body strips to the empty string is discarded; on the fallback parse path
an empty-after-trim body reaches the caller (see the counterexample). -/
theorem C3_body_nonempty (parsed : JVal) (fp cat : String) (out : List Comment)
    (h : formatOutputStrict parsed fp cat = some out) :
    ∀ c ∈ out, c.body ≠ "" := by
  intro c hc
  cases parsed with
  | obj fields =>
    simp only [formatOutputStrict] at h
    exact (processStrictItems_mem h c hc).2.2
  | arr items =>
    simp only [formatOutputStrict] at h
    exact (processStrictItems_mem h c hc).2.2
  | num q =>
    simp only [formatOutputStrict] at h
    injection h with h2
    subst h2
    cases hc
  | str s =>
    simp only [formatOutputStrict] at h
    injection h with h2
    subst h2
    cases hc

/-- Witness for `C3_body_nonempty` at a concrete strict-path input. -/
theorem C3_body_nonempty_witness :
    (⟨"f", 2, "new", "logic", strictDefaultConf, "kept"⟩ : Comment).body ≠ "" :=
  C3_body_nonempty
    (JVal.arr [JVal.obj [("body", JVal.str " kept "), ("line", JVal.num 2)]])
    "f" "logic" [⟨"f", 2, "new", "logic", strictDefaultConf, "kept"⟩] (by decide)
    ⟨"f", 2, "new", "logic", strictDefaultConf, "kept"⟩ (by decide)

/-! ## LLM retry wrapper (`agents/llm_client.py::llm_call`) and the
orchestrator (`agents/orchestrator.py::run_agents_on_files`)

The HTTP transport is external: an oracle maps the attempt number to the
outcome `llm_call` classifies.  A successful call carries the decoded
response (the reviewer immediately normalizes the returned text; the
`content.strip()` at llm_client.py:92 does not change what `json.loads`
or the bracket scan decode). -/

/-- One outcome of the Gemini POST, as `llm_call` classifies it
(llm_client.py:79-134).  `success none` models a 200 whose candidate
content is empty or missing. -/
inductive GeminiResp where
  | success (content : Option RawResp)
  | badRequest
  | forbidden
  | rateLimited
  | serverError
  | otherStatus
  | timeoutExn
  | requestExn

/-- The retry loop of `llm_call` (llm_client.py:72-150) from attempt
number `attempt`, with `fuel` attempts left (`fuel = maxRetries −
attempt + 1` at entry).  `Except.error` is a raised `LLMError`.  Rate
limits, server errors, timeouts and network errors retry while
`attempt < maxRetries`; 400/403/other statuses and empty content raise
immediately (the `except LLMError: raise` clause re-raises without
retrying).  The backoff sleeps have no observable effect on the result
and are dropped. -/
def llmCallFrom (oracle : Nat → GeminiResp) (maxRetries : Nat) :
    Nat → Nat → Except Unit RawResp
  | _, 0 => .error ()
  | attempt, fuel + 1 =>
    match oracle attempt with
    | .success (some c) => .ok c
    | .success none => .error ()
    | .badRequest => .error ()
    | .forbidden => .error ()
    | .rateLimited =>
      if attempt < maxRetries then llmCallFrom oracle maxRetries (attempt + 1) fuel
      else .error ()
    | .serverError =>
      if attempt < maxRetries then llmCallFrom oracle maxRetries (attempt + 1) fuel
      else .error ()
    | .otherStatus => .error ()
    | .timeoutExn =>
      if attempt < maxRetries then llmCallFrom oracle maxRetries (attempt + 1) fuel
      else .error ()
    | .requestExn =>
      if attempt < maxRetries then llmCallFrom oracle maxRetries (attempt + 1) fuel
      else .error ()

/-- `llm_call` with its `max_retries` bound (default 3 at the call sites
the reviewers use). -/
def llm_call (oracle : Nat → GeminiResp) (maxRetries : Nat) : Except Unit RawResp :=
  llmCallFrom oracle maxRetries 1 maxRetries

theorem llmCallFrom_rateLimited (oracle : Nat → GeminiResp) (maxRetries : Nat)
    (h : ∀ n, oracle n = GeminiResp.rateLimited) :
    ∀ fuel attempt, llmCallFrom oracle maxRetries attempt fuel = .error () := by
  intro fuel
  induction fuel with
  | zero => intro attempt; rfl
  | succ f ih =>
    intro attempt
    simp only [llmCallFrom, h]
    split
    · exact ih (attempt + 1)
    · rfl

/-- A producer whose every call fails with a retryable error exhausts the
budget and `llm_call` raises. -/
theorem llm_call_exhausts (oracle : Nat → GeminiResp) (maxRetries : Nat)
    (h : ∀ n, oracle n = GeminiResp.rateLimited) :
    llm_call oracle maxRetries = .error () :=
  llmCallFrom_rateLimited oracle maxRetries h maxRetries 1

/-- The per-hunk loop of `LogicAgent.review` (logic_agent.py:67-97),
with the producer's decoded responses given per hunk index: a raised
`LLMError` (`llm_call = .error`) is caught and the hunk skipped; an
exception escaping `_format_output` (`format_output = none`) is caught
by the generic `except Exception` and the hunk skipped; otherwise the
normalized comments extend the accumulator in hunk order.  The prompt
built from `_extract_hunk_snippet` only feeds the external producer,
which the oracle abstracts per unit of work. -/
def reviewHunks (oracle : Nat → Nat → GeminiResp) (filePath category : String) :
    Nat → List Hunk → List Comment
  | _, [] => []
  | i, _ :: rest =>
    match llm_call (oracle i) 3 with
    | .error _ => reviewHunks oracle filePath category (i + 1) rest
    | .ok raw =>
      match format_output raw filePath category with
      | some cs => cs ++ reviewHunks oracle filePath category (i + 1) rest
      | none => reviewHunks oracle filePath category (i + 1) rest

/-- `LogicAgent.review` (logic_agent.py:48-100).  The Style, Security and
Performance reviewers share this shape verbatim, differing only in
prompt text, model name and category. -/
def logicAgentReview (oracle : Nat → Nat → GeminiResp) (ctx : ParsedFile) : List Comment :=
  if ctx.hunks.isEmpty then []
  else reviewHunks oracle ctx.path "logic" 0 ctx.hunks

/-- What the orchestrator's result loop keeps from one gathered outcome:
the list on success, nothing for an exception value
(orchestrator.py:58-65). -/
def okValue : Except Unit (List Comment) → List Comment
  | .ok l => l
  | .error _ => []

/-- `run_agents_on_files` (orchestrator.py:18-78), parameterized by the
reviewer list — the source instantiates the four agents, all sharing the
`review` shape above.  Per file, the reviewers' outcomes are gathered in
order (`asyncio.gather(..., return_exceptions=True)` turns a raised
exception into a value); exceptional outcomes are skipped, list results
extend the accumulator; the batch ends with `_deduplicate_comments`. -/
def run_agents_on_files (agentRuns : List (ParsedFile → Except Unit (List Comment)))
    (files : List ParsedFile) : List Comment :=
  if files.isEmpty then []
  else
    deduplicate_comments
      (files.foldl (fun acc ctx =>
        acc ++ agentRuns.foldl (fun acc2 a =>
          match a ctx with
          | .ok l => acc2 ++ l
          | .error _ => acc2) []) [])

theorem gatherStep_eq (acc2 : List Comment) (x : Except Unit (List Comment)) :
    (match x with
      | .ok l => acc2 ++ l
      | .error _ => acc2) = acc2 ++ okValue x := by
  cases x with
  | ok l => rfl
  | error e => simp [okValue]

theorem run_agents_head_congr (a1 a2 : ParsedFile → Except Unit (List Comment))
    (rest : List (ParsedFile → Except Unit (List Comment))) (files : List ParsedFile)
    (h : ∀ ctx, okValue (a1 ctx) = okValue (a2 ctx)) :
    run_agents_on_files (a1 :: rest) files = run_agents_on_files (a2 :: rest) files := by
  unfold run_agents_on_files
  by_cases hf : files.isEmpty
  · rw [if_pos hf, if_pos hf]
  · rw [if_neg hf, if_neg hf]
    have hinner : ∀ ctx, (a1 :: rest).foldl (fun acc2 a =>
        match a ctx with
        | .ok l => acc2 ++ l
        | .error _ => acc2) [] =
      (a2 :: rest).foldl (fun acc2 a =>
        match a ctx with
        | .ok l => acc2 ++ l
        | .error _ => acc2) [] := by
      intro ctx
      rw [List.foldl_cons, List.foldl_cons, gatherStep_eq, gatherStep_eq, h ctx]
    have houter : files.foldl (fun acc ctx =>
          acc ++ (a1 :: rest).foldl (fun acc2 a =>
            match a ctx with
            | .ok l => acc2 ++ l
            | .error _ => acc2) []) [] =
        files.foldl (fun acc ctx =>
          acc ++ (a2 :: rest).foldl (fun acc2 a =>
            match a ctx with
            | .ok l => acc2 ++ l
            | .error _ => acc2) []) [] := by
      apply List.foldl_ext
      intro acc ctx _
      rw [hinner ctx]
    rw [houter]

/-- With an always-failing producer the reviewer contributes zero
findings for every file. -/
theorem logicAgentReview_allFail (oracle : Nat → Nat → GeminiResp)
    (h : ∀ i n, oracle i n = GeminiResp.rateLimited) (ctx : ParsedFile) :
    logicAgentReview oracle ctx = [] := by
  unfold logicAgentReview
  by_cases he : ctx.hunks.isEmpty
  · rw [if_pos he]
  · rw [if_neg he]
    have : ∀ (hs : List Hunk) (i : Nat), reviewHunks oracle ctx.path "logic" i hs = [] := by
      intro hs
      induction hs with
      | nil => intro i; rfl
      | cons hk rest ih =>
        intro i
        unfold reviewHunks
        rw [llm_call_exhausts (oracle i) 3 (h i)]
        exact ih (i + 1)
    exact this ctx.hunks 0

/-- C8 (confirmed): if one reviewer's producer calls always fail with a
retryable error, its retry budget is exhausted and it contributes zero
findings: the orchestrator's result equals what the remaining reviewers
alone produce.  Likewise a reviewer task that raises outright (the
exception value gathered by `return_exceptions=True`) changes nothing;
no failure local to one unit of work escapes `run_agents_on_files`,
which returns a plain list for every input. -/
theorem C8_failure_isolated (files : List ParsedFile)
    (rest : List (ParsedFile → Except Unit (List Comment)))
    (oracle : ParsedFile → Nat → Nat → GeminiResp)
    (h : ∀ ctx i n, oracle ctx i n = GeminiResp.rateLimited) :
    run_agents_on_files
        ((fun ctx => Except.ok (logicAgentReview (oracle ctx) ctx)) :: rest) files =
      run_agents_on_files ((fun _ => Except.ok []) :: rest) files ∧
    run_agents_on_files ((fun _ => Except.error ()) :: rest) files =
      run_agents_on_files ((fun _ => Except.ok []) :: rest) files := by
  constructor
  · apply run_agents_head_congr
    intro ctx
    show logicAgentReview (oracle ctx) ctx = ([] : List Comment)
    exact logicAgentReview_allFail (oracle ctx) (h ctx) ctx
  · apply run_agents_head_congr
    intro ctx
    rfl

/-- A finding another reviewer produces in the witness scenario. -/
def otherFinding : Comment := ⟨"f", 1, "new", "style", conf09, "kept finding"⟩

/-- Witness for `C8_failure_isolated`: one file, one always-rate-limited
logic reviewer, one healthy reviewer. -/
theorem C8_failure_isolated_witness :
    run_agents_on_files
        ((fun ctx => Except.ok (logicAgentReview
            ((fun _ _ _ => GeminiResp.rateLimited) ctx) ctx)) ::
          [fun _ => Except.ok [otherFinding]])
        [⟨"f", [⟨"@@ -1 +1 @@", ["+a"]⟩]⟩] =
      run_agents_on_files ((fun _ => Except.ok []) :: [fun _ => Except.ok [otherFinding]])
        [⟨"f", [⟨"@@ -1 +1 @@", ["+a"]⟩]⟩] ∧
    run_agents_on_files ((fun _ => Except.error ()) :: [fun _ => Except.ok [otherFinding]])
        [⟨"f", [⟨"@@ -1 +1 @@", ["+a"]⟩]⟩] =
      run_agents_on_files ((fun _ => Except.ok []) :: [fun _ => Except.ok [otherFinding]])
        [⟨"f", [⟨"@@ -1 +1 @@", ["+a"]⟩]⟩] :=
  C8_failure_isolated [⟨"f", [⟨"@@ -1 +1 @@", ["+a"]⟩]⟩]
    [fun _ => Except.ok [otherFinding]]
    (fun _ _ _ => GeminiResp.rateLimited) (fun _ _ _ => rfl)
